import Mathlib

/-!
Verification of the job-polling / result-reconciliation frontend of the
fundamental-analysis-agent repository.

The development shallowly embeds the relevant source files:

* `frontend/src/api/client.ts`   — the HTTP wrappers (their thrown error
  messages and the mode-parameterised endpoints);
* `frontend/src/pages/LandingPage.tsx` — `onStart`, the polling
  `useEffect`, `calcAnalysisHealth`, `filteredEntries` and the
  `leftResult`/`rightResult` split;
* `frontend/src/components/StickyBar.tsx` — the completion percentage.

Pure functions are translated as Lean functions over a small JSON value
type (`JValue`); the stateful poller is translated as an explicit
transition system (`St`, `Event`, `step`, `run`) whose observations
(`Obs`) record every HTTP request issued and every React state write
performed by a poll callback.
-/

namespace FundamentalAnalysis

/- ============================================================
   JavaScript string primitives used by the source
   ============================================================ -/

/-- One segment check for `charsIncludes`: does `pat` occur at the start
of `l`?  (Mirrors the prefix test underlying JS `String.includes`.) -/
def charsLeads : List Char → List Char → Bool
  | [], _ => true
  | _ :: _, [] => false
  | a :: as, b :: bs => a == b && charsLeads as bs

/-- `hay` contains `needle` as a contiguous substring; JS
`hay.includes(needle)` (note `"".includes("") = true`). -/
def charsIncludes : List Char → List Char → Bool
  | [], needle => charsLeads needle []
  | hay@(_ :: t), needle => charsLeads needle hay || charsIncludes t needle

/-- JS `hay.includes(needle)` on Lean strings. -/
def strIncludes (hay needle : String) : Bool :=
  charsIncludes hay.data needle.data

/-- The whitespace characters removed by JS `String.prototype.trim`
(ASCII part; the source only ever trims user-typed ticker symbols). -/
def jsIsSpace (c : Char) : Bool :=
  c == ' ' || c == '\t' || c == '\n' || c == '\r' ||
  c == '\x0b' || c == '\x0c'

/-- JS `s.trim()`: drop leading and trailing whitespace. -/
def jsTrimChars (l : List Char) : List Char :=
  ((l.dropWhile jsIsSpace).reverse.dropWhile jsIsSpace).reverse

/-- JS `s.trim()` on Lean strings. -/
def jsTrim (s : String) : String :=
  ⟨jsTrimChars s.data⟩

/-- JS `s.toUpperCase()` restricted to ASCII letters (the ticker symbols
this frontend handles). -/
def jsToUpper (s : String) : String :=
  ⟨s.data.map Char.toUpper⟩

/-- JS `s.toLowerCase()` restricted to ASCII letters. -/
def jsToLower (s : String) : String :=
  ⟨s.data.map Char.toLower⟩

/-- `LandingPage.onStart` line `const clean = symbol.trim().toUpperCase()`
(and identically `client.runSingleAnalysis`). -/
def normalizeSymbol (s : String) : String :=
  jsToUpper (jsTrim s)

/- ============================================================
   JSON values (the `any` payloads flowing through the frontend)
   ============================================================ -/

/-- Dynamic JS values as seen by the frontend: JSON plus `null`.
Object fields are kept in insertion order, matching `Object.keys` /
`Object.entries` for the non-numeric keys used by the backend. -/
inductive JValue where
  | null : JValue
  | bool : Bool → JValue
  | num : Int → JValue
  | str : String → JValue
  | arr : List JValue → JValue
  | obj : List (String × JValue) → JValue

/-- JS property read `v[k]` on an object: first field with that name,
`undefined` (here `none`) otherwise or on non-objects. -/
def jsGet (v : JValue) (k : String) : Option JValue :=
  match v with
  | JValue.obj fs =>
    match fs.find? (fun f => f.1 == k) with
    | some f => some f.2
    | none => none
  | _ => none

/-- JS truthiness test `!payload` (negated): `null`, `false`, `0` and
`""` are falsy. -/
def jsTruthy (v : JValue) : Bool :=
  match v with
  | JValue.null => false
  | JValue.bool b => b
  | JValue.num n => n != 0
  | JValue.str s => s != ""
  | JValue.arr _ => true
  | JValue.obj _ => true

/- ============================================================
   calcAnalysisHealth  (LandingPage.tsx lines 48-63)
   ============================================================ -/

/-- The health classification values (`Health` in the source; the filter
value `all` is included because the filter compares against it). -/
inductive Health where
  | all | good | bad | neutral
  deriving DecidableEq, Repr

/-- The meta keys excluded from criterion scanning in
`calcAnalysisHealth` (and in `ResultsView`). -/
def metaKeys : List String :=
  ["symbol", "frequency", "overall_assessment", "message", "crv"]

/-- `v?.meets_criterion` compared with `=== false` / `=== true`: yields
`some b` exactly when the property exists and is the boolean `b`. -/
def meetsCriterion (v : JValue) : Option Bool :=
  match jsGet v "meets_criterion" with
  | some (JValue.bool b) => some b
  | _ => none

/-- The `for (const k of keys)` loop of `calcAnalysisHealth`: returns
`bad` on the first value whose `meets_criterion === false`, else records
whether some value had `meets_criterion === true`. -/
def healthLoop : List JValue → Bool → Health
  | [], hasTrue => if hasTrue then Health.good else Health.neutral
  | v :: rest, hasTrue =>
    match meetsCriterion v with
    | some false => Health.bad
    | some true => healthLoop rest true
    | none => healthLoop rest hasTrue

/-- The values scanned by `calcAnalysisHealth`: for objects, the values
of all fields outside `metaKeys`; for arrays (JS `typeof` "object" with
numeric keys, none of which is a meta key), the elements. -/
def criterionValues : JValue → List JValue
  | JValue.obj fs => (fs.filter (fun f => !(metaKeys.contains f.1))).map Prod.snd
  | JValue.arr xs => xs
  | _ => []

/-- `calcAnalysisHealth(payload)` from `LandingPage.tsx`: `neutral` for
falsy or non-object payloads (the guard
`if (!payload || typeof payload !== "object")`), otherwise the loop over
the non-meta keys. -/
def calcAnalysisHealth (payload : JValue) : Health :=
  match payload with
  | JValue.obj fs => healthLoop (criterionValues (JValue.obj fs)) false
  | JValue.arr xs => healthLoop (criterionValues (JValue.arr xs)) false
  | _ => Health.neutral

/- ============================================================
   StickyBar completion percentage  (StickyBar.tsx lines 36-39)
   ============================================================ -/

/-- Analysis job status (`AnalysisStatus` in `types/api.ts`). -/
inductive Status where
  | running | done | error
  deriving DecidableEq, Repr

/-- A progress snapshot (`Progress` in `types/api.ts`). -/
structure ProgressM where
  job_id : String
  symbol : String
  status : Status
  total : Int
  done : Int
  current : Option String := none
  error : Option String := none
  deriving DecidableEq, Repr

/-- JS `Math.round`: round half toward positive infinity,
`Math.round(x) = ⌊x + 1/2⌋`. -/
def jsRound (q : ℚ) : ℤ := ⌊q + (1 : ℚ) / 2⌋

/-- The `percent` computation of `StickyBar`:
`progress && progress.total > 0 ? Math.round((progress.done / progress.total) * 100) : 0`.
Numbers are modelled exactly (the counters are integers per the API). -/
def stickyPercent (progress : Option ProgressM) : ℤ :=
  match progress with
  | none => 0
  | some p =>
    if p.total > 0 then jsRound ((p.done : ℚ) / (p.total : ℚ) * 100) else 0

/- ============================================================
   Result filtering and the two-column split
   (LandingPage.tsx lines 219-245)
   ============================================================ -/

/-- Is the value JS `null`? -/
def isNullV : JValue → Bool
  | JValue.null => true
  | _ => false

/-- JS `String(v)` on a value interpolated into a template literal:
primitives print directly, arrays join their elements with `","`
(`null` elements printing as `""`), plain objects print as
`"[object Object]"`. -/
def jsTemplate : JValue → String
  | JValue.null => "null"
  | JValue.bool b => if b then "true" else "false"
  | JValue.num n => toString n
  | JValue.str s => s
  | JValue.obj _ => "[object Object]"
  | JValue.arr xs =>
    String.intercalate "," (xs.attach.map (fun x =>
      if isNullV x.1 then "" else jsTemplate x.1))
decreasing_by
  have := List.sizeOf_lt_of_mem x.2
  simp [JValue.arr.sizeOf_spec]
  omega

/-- The recursive `walk` of `payloadContainsQuery`: primitives are
stringified, lowercased and tested with `includes`; arrays use `some`;
objects match when a lowercased key or a value matches. `q` is already
lowercased by the caller. -/
def walkContains (q : String) : JValue → Bool
  | JValue.null => false
  | JValue.bool b => strIncludes (jsToLower (jsTemplate (JValue.bool b))) q
  | JValue.num n => strIncludes (jsToLower (jsTemplate (JValue.num n))) q
  | JValue.str s => strIncludes (jsToLower s) q
  | JValue.arr xs => xs.attach.any (fun x => walkContains q x.1)
  | JValue.obj fs => fs.attach.any (fun f =>
      strIncludes (jsToLower f.1.1) q || walkContains q f.1.2)
decreasing_by
  · have := List.sizeOf_lt_of_mem x.2
    simp [JValue.arr.sizeOf_spec]
    omega
  · have h1 := List.sizeOf_lt_of_mem f.2
    have h2 : sizeOf f.1.2 < sizeOf f.1 := by
      obtain ⟨⟨a, b⟩, hf⟩ := f
      simp only [Prod.mk.sizeOf_spec]
      omega
    simp [JValue.obj.sizeOf_spec]
    omega

/-- `payloadContainsQuery(payload, query)` from `LandingPage.tsx`: false
for falsy payloads or an empty query, otherwise the recursive walk with
the lowercased query. -/
def payloadContainsQuery (payload : JValue) (query : String) : Bool :=
  if !(jsTruthy payload) || query == "" then false
  else walkContains (jsToLower query) payload

/-- `splitKey(key)` from `LandingPage.tsx`: the part before the first
`"|"` (the analysis name). `key.split("|")` always yields at least one
element, so `name ?? key` is the head. -/
def splitKeyName (key : String) : String :=
  (key.splitOn "|").headD key

/-- `splitKey(key)`: the part after the first `"|"`, lowercased
(`(freq ?? "").toLowerCase()`). -/
def splitKeyFreq (key : String) : String :=
  jsToLower (((key.splitOn "|").drop 1).headD "")

/-- The frequency filter values (`Freq` in the source). -/
inductive Freq where
  | all | annual | quarterly
  deriving DecidableEq, Repr

/-- The string a `Freq` value compares against (`f !== freq` compares
the key-derived string with the select value). -/
def freqStr : Freq → String
  | Freq.all => "all"
  | Freq.annual => "annual"
  | Freq.quarterly => "quarterly"

/-- A full analysis result (`FullResult` in `types/api.ts`).  `results`
is the entry list of the JS object, in `Object.entries` order. -/
structure FullResultM where
  job_id : String
  symbol : String
  status : Status
  total : Int
  done : Int
  error : Option String := none
  results : List (String × JValue)

/-- `payload?.overall_assessment ?? ""` (resp. `message`) interpolated
into the meta template string: missing or `null` fields print as `""`. -/
def metaField (payload : JValue) (k : String) : String :=
  match jsGet payload k with
  | none => ""
  | some JValue.null => ""
  | some v => jsTemplate v

/-- The filter predicate inside `filteredEntries` (LandingPage.tsx lines
223-234), for one `[key, payload]` entry. -/
def entryPasses (query : String) (freq : Freq) (health : Health)
    (key : String) (payload : JValue) : Bool :=
  let q := jsToLower query
  let name := splitKeyName key
  let f := splitKeyFreq key
  if q != "" &&
      !(strIncludes
          (jsToLower (name ++ " " ++ f ++ " " ++ metaField payload "overall_assessment"
            ++ " " ++ metaField payload "message")) q) &&
      !(payloadContainsQuery payload q) then false
  else if freq != Freq.all && f != freqStr freq then false
  else if health != Health.all && calcAnalysisHealth payload != health then false
  else true

/-- `filteredEntries` (LandingPage.tsx lines 219-235): empty without a
result, otherwise the entries of `result.results` that pass the filter. -/
def filteredEntries (result : Option FullResultM) (query : String)
    (freq : Freq) (health : Health) : List (String × JValue) :=
  match result with
  | none => []
  | some r => r.results.filter (fun e => entryPasses query freq health e.1 e.2)

/-- The `make(subset)` helper of the `leftResult`/`rightResult` memo:
spread the result, replace `results` with the subset and `total` with
the subset length. -/
def makeView (r : FullResultM) (subset : List (String × JValue)) : FullResultM :=
  { r with results := subset, total := (subset.length : Int) }

/-- `[leftResult, rightResult]` (LandingPage.tsx lines 237-245):
`(null, null)` without a result, otherwise the first
`Math.ceil(n / 2)` filtered entries on the left and the rest on the
right. -/
def splitResults (result : Option FullResultM) (query : String)
    (freq : Freq) (health : Health) : Option FullResultM × Option FullResultM :=
  match result with
  | none => (none, none)
  | some r =>
    let es := filteredEntries (some r) query freq health
    let mid := (es.length + 1) / 2
    (some (makeView r (es.take mid)), some (makeView r (es.drop mid)))

/- ============================================================
   The job poller / result reconciler
   (LandingPage.tsx `onStart` lines 106-138 and the polling
   `useEffect` lines 141-216, over the wrappers of client.ts)
   ============================================================ -/

/-- `AnalysisMode` from `client.ts`. -/
inductive Mode where
  | full | wachstumswerte | dividendenwerte | averageGrower
  | typischeZykliker | turnarounds | optionality | assetPlay
  deriving DecidableEq, Repr

/-- The message of the error thrown by `getProgress` /
`getSingleProgress` on any non-2xx response (client.ts lines 16-20 and
146-153): the HTTP status code is discarded. -/
def progressErrorMessage (mode : Mode) : String :=
  if mode == Mode.full then "Progress error" else "Single progress error"

/-- The message of the error thrown by `getResult` / `getSingleResult`
on any non-2xx response (client.ts lines 22-26 and 155-162). -/
def resultErrorMessage (mode : Mode) : String :=
  if mode == Mode.full then "Result error" else "Single result error"

/-- An HTTP request of the poll loop that has been issued but whose
response has not yet been applied (the `poll` async function is
suspended at an `await`).  A `poll` flight records the `jobId` captured
by the effect closure and the `activeJobModeRef.current` value read at
the top of `poll`; a `fetch` flight is the result fetch started inside
the `status === "done"` branch. -/
inductive Flight where
  | poll (jid : Nat) (mode : Mode)
  | fetch (jid : Nat) (mode : Mode)
  deriving DecidableEq, Repr

/-- The job a flight belongs to. -/
def Flight.jid : Flight → Nat
  | Flight.poll j _ => j
  | Flight.fetch j _ => j

/-- The mode a flight dispatches on. -/
def Flight.mode : Flight → Mode
  | Flight.poll _ m => m
  | Flight.fetch _ m => m

/-- The component state of `LandingPage`.  React state hooks, the two
refs, and the browser-level set of live interval timers.  Jobs and
timers are identified by allocation counters; `pins` is a ghost record
of the mode pinned at each job's submission (the value written to
`activeJobModeRef.current` by `onStart`). -/
structure St where
  analysisMode : Mode
  activeJobMode : Mode
  jobId : Option Nat
  loading : Bool
  progress : Option ProgressM
  result : Option Nat
  timers : List (Nat × Nat)
  intervalRef : Option Nat
  inflight : List Flight
  nextTimer : Nat
  nextJob : Nat
  pins : Nat → Mode

/-- Observable actions of a step: the `submitted` marker, the HTTP
requests issued (progress polls and result fetches, with the dispatch
mode and the job they target), the React state writes performed by a
poll callback, and `console.error` logging. -/
inductive Obs where
  | submitted (jid : Nat) (mode : Mode)
  | reqProgress (mode : Mode) (jid : Nat)
  | reqResult (mode : Mode) (jid : Nat)
  | wroteProgress (jid : Nat) (st : Status)
  | wroteResult (jid : Nat)
  | loggedError
  deriving DecidableEq, Repr

/-- Environment / user events driving the component.  Response events
name the in-flight request they resolve by its index in `inflight`;
failure events carry the HTTP status of the non-2xx response. -/
inductive Event where
  | selectMode (m : Mode)
  | submit
  | tick (t : Nat)
  | pollOk (i : Nat) (p : ProgressM)
  | pollFail (i : Nat) (status : Nat)
  | fetchOk (i : Nat) (r : Nat)
  | fetchFail (i : Nat) (status : Nat)
  deriving DecidableEq, Repr

/-- `if (intervalRef.current !== null) { clearInterval(...); intervalRef.current = null }`. -/
def clearCurrent (s : St) : St :=
  match s.intervalRef with
  | none => s
  | some t => { s with timers := s.timers.filter (fun x => x.1 != t), intervalRef := none }

/-- The body of the `poll` callback receiving a progress snapshot
(LandingPage.tsx lines 150-195): `setProgress(p)` unconditionally, then
on `done` clear the interval, start the result fetch (using the mode
read at the top of `poll` and the captured `jobId`); on `error` clear
the interval and `setLoading(false)`. -/
def applyPoll (s : St) (i : Nat) (j : Nat) (m : Mode) (p : ProgressM) : St × List Obs :=
  let s1 := { s with inflight := s.inflight.eraseIdx i, progress := some p }
  match p.status with
  | Status.done =>
    let s2 := clearCurrent s1
    ({ s2 with inflight := s2.inflight ++ [Flight.fetch j m] },
      [Obs.wroteProgress j Status.done, Obs.reqResult m j])
  | Status.error =>
    ({ clearCurrent s1 with loading := false }, [Obs.wroteProgress j Status.error])
  | Status.running => (s1, [Obs.wroteProgress j Status.running])

/-- One transition of the component.

* `selectMode`: the mode dropdown's `onChange` (only `analysisMode`).
* `submit`: a click on the enabled Start button with a non-empty
  symbol, the start request succeeding, and the polling effect re-run
  for the new `jobId` — `onStart` clears result/progress/jobId (the
  effect cleanup for the old job clears its interval), pins
  `activeJobModeRef.current`, sets the new job id, and the effect
  issues the immediate first poll and registers the 700 ms interval.
  The button is disabled while `loading`, so a click then is a no-op.
* `tick`: one firing of a registered interval timer; it invokes `poll`,
  which reads `activeJobModeRef.current` and issues a progress request
  for the `jobId` captured by the closure that created the timer.
* `pollOk` / `pollFail`: the progress response (or non-2xx failure)
  for an in-flight poll; the catch block ignores the error exactly when
  its message contains `"404"`, otherwise logs and `setLoading(false)`.
* `fetchOk` / `fetchFail`: the result-fetch response; on success
  `setResult(r)` and `setLoading(false)`; on failure the same catch
  block applies. -/
def step (s : St) : Event → St × List Obs
  | Event.selectMode m => ({ s with analysisMode := m }, [])
  | Event.submit =>
    if s.loading then (s, []) else
    let j := s.nextJob
    let m := s.analysisMode
    let s1 := clearCurrent { s with result := none, progress := none, jobId := none }
    let t := s1.nextTimer
    ({ s1 with
        loading := true
        activeJobMode := m
        pins := fun k => if k == j then m else s1.pins k
        jobId := some j
        inflight := s1.inflight ++ [Flight.poll j m]
        timers := s1.timers ++ [(t, j)]
        intervalRef := some t
        nextTimer := t + 1
        nextJob := j + 1 },
      [Obs.submitted j m, Obs.reqProgress m j])
  | Event.tick t =>
    match s.timers.find? (fun x => x.1 == t) with
    | none => (s, [])
    | some x =>
      let m := s.activeJobMode
      ({ s with inflight := s.inflight ++ [Flight.poll x.2 m] }, [Obs.reqProgress m x.2])
  | Event.pollOk i p =>
    match s.inflight[i]? with
    | some (Flight.poll j m) => applyPoll s i j m p
    | _ => (s, [])
  | Event.pollFail i _ =>
    match s.inflight[i]? with
    | some (Flight.poll _ m) =>
      let s1 := { s with inflight := s.inflight.eraseIdx i }
      if strIncludes (progressErrorMessage m) "404" then (s1, [])
      else ({ s1 with loading := false }, [Obs.loggedError])
    | _ => (s, [])
  | Event.fetchOk i r =>
    match s.inflight[i]? with
    | some (Flight.fetch j _) =>
      ({ s with inflight := s.inflight.eraseIdx i, result := some r, loading := false },
        [Obs.wroteResult j])
    | _ => (s, [])
  | Event.fetchFail i _ =>
    match s.inflight[i]? with
    | some (Flight.fetch _ m) =>
      let s1 := { s with inflight := s.inflight.eraseIdx i }
      if strIncludes (resultErrorMessage m) "404" then (s1, [])
      else ({ s1 with loading := false }, [Obs.loggedError])
    | _ => (s, [])

/-- Run a list of events, accumulating observations in order. -/
def run (s : St) : List Event → St × List Obs
  | [] => (s, [])
  | e :: es =>
    let r1 := step s e
    let r2 := run r1.1 es
    (r2.1, r1.2 ++ r2.2)

/-- The initial component state (the `useState` / `useRef` initial
values of `LandingPage`). -/
def initSt : St :=
  { analysisMode := Mode.full
    activeJobMode := Mode.full
    jobId := none
    loading := false
    progress := none
    result := none
    timers := []
    intervalRef := none
    inflight := []
    nextTimer := 0
    nextJob := 0
    pins := fun _ => Mode.full }

/-- Serialized schedules: no timer tick fires and no submission happens
while a request is in flight (the concurrency regime the specification
assumes: at most one outstanding request at a time). -/
def serializedFrom (s : St) : List Event → Bool
  | [] => true
  | e :: es =>
    let ok := match e with
      | Event.tick _ => s.inflight.isEmpty
      | Event.submit => s.inflight.isEmpty
      | _ => true
    ok && serializedFrom (step s e).1 es

/-- The number of result-fetch requests issued for job `j` in an
observation list. -/
def resultFetchCount (j : Nat) : List Obs → Nat
  | [] => 0
  | Obs.reqResult _ j2 :: l => (if j2 == j then 1 else 0) + resultFetchCount j l
  | _ :: l => resultFetchCount j l

/-- The number of polls of job `j` observed to return `done`. -/
def doneObsCount (j : Nat) : List Obs → Nat
  | [] => 0
  | Obs.wroteProgress j2 st :: l =>
    (if j2 == j && st == Status.done then 1 else 0) + doneObsCount j l
  | _ :: l => doneObsCount j l

/-- Job `j` is dead for the poller: no live timer polls it, no progress
request for it is outstanding, and it can never be re-allocated. -/
def NoJ (j : Nat) (s : St) : Prop :=
  (∀ x ∈ s.timers, x.2 ≠ j) ∧
  (∀ f ∈ s.inflight, ∀ m : Mode, f ≠ Flight.poll j m) ∧
  j < s.nextJob

/-- Shape of the timer resources: at most one interval timer is ever
registered, it is the one held by `intervalRef`, and it polls the
current job, whose pinned mode is the current `activeJobModeRef`
value. -/
def TimerShape (s : St) : Prop :=
  (s.intervalRef = none ∧ s.timers = []) ∨
  (∃ t j, s.intervalRef = some t ∧ s.timers = [(t, j)] ∧ s.jobId = some j ∧
    j < s.nextJob ∧ s.pins j = s.activeJobMode)

/-- Reachability invariant: the timer shape, plus every in-flight
request belongs to an allocated job and dispatches on that job's pinned
mode. -/
def Inv (s : St) : Prop :=
  TimerShape s ∧
  ∀ f ∈ s.inflight, Flight.jid f < s.nextJob ∧ Flight.mode f = s.pins (Flight.jid f)

/-- One observation is consistent with the pin record: a request or a
`submitted` marker for job `j` carries exactly the mode pinned for `j`
at its submission. -/
def obsOk (s : St) : Obs → Prop
  | Obs.submitted j m => j < s.nextJob ∧ m = s.pins j
  | Obs.reqProgress m j => j < s.nextJob ∧ m = s.pins j
  | Obs.reqResult m j => j < s.nextJob ∧ m = s.pins j
  | _ => True

/-- Every request observation carries the pinned mode of its job, and
every `submitted` marker records that pin. -/
def ObsPinned (s : St) (l : List Obs) : Prop :=
  ∀ o ∈ l, obsOk s o

/-- A concrete `done` snapshot used by counterexample traces. -/
def pDone : ProgressM :=
  { job_id := "j", symbol := "AAPL", status := Status.done, total := 5, done := 5 }

/-- A concrete `error` snapshot used by witnesses. -/
def pErr : ProgressM :=
  { job_id := "j", symbol := "AAPL", status := Status.error, total := 5, done := 2 }

/-- The stale-callback trace: job 0 is submitted; its first poll fails
transiently (HTTP 500), which clears `loading` and re-enables the Start
button while job 0's interval keeps running; the interval fires, putting
a poll for job 0 in flight; job 1 is then submitted; job 0's in-flight
poll now resolves with `done`, and its result fetch resolves. -/
def c2trace : List Event :=
  [Event.submit, Event.pollFail 0 500, Event.tick 0, Event.submit,
    Event.pollOk 0 pDone, Event.fetchOk 1 7]

/-- The overlapping-poll trace: job 0 is submitted; its interval fires
at 700 ms while the first poll's response is still outstanding, so two
polls of job 0 are in flight; both resolve with `done`. -/
def c3trace : List Event :=
  [Event.submit, Event.tick 0, Event.pollOk 0 pDone, Event.pollOk 0 pDone]

/-- The not-found trace: job 0 is submitted and its first poll fails
with HTTP 404. -/
def c4trace : List Event :=
  [Event.submit, Event.pollFail 0 404]

/-- A concrete result used by the split witness: three entries, one
passing criterion, one failing, one null payload. -/
def c10exResult : FullResultM :=
  { job_id := "job-1"
    symbol := "AAPL"
    status := Status.done
    total := 3
    done := 3
    results := [
      ("Wachstumswerte|annual",
        JValue.obj [("umsatzwachstum", JValue.obj [("meets_criterion", JValue.bool true)])]),
      ("Wachstumswerte|quarterly",
        JValue.obj [("umsatzwachstum", JValue.obj [("meets_criterion", JValue.bool false)])]),
      ("Optionality|annual", JValue.null)] }

/- ============================================================
   Basic lemmas about the transition system
   ============================================================ -/

theorem run_append (s : St) (l1 l2 : List Event) :
    run s (l1 ++ l2) =
      ((run (run s l1).1 l2).1, (run s l1).2 ++ (run (run s l1).1 l2).2) := by
  induction l1 generalizing s with
  | nil => simp [run]
  | cons e es ih => simp [run, ih]

theorem serializedFrom_append (s : St) (l1 l2 : List Event) :
    serializedFrom s (l1 ++ l2) =
      (serializedFrom s l1 && serializedFrom (run s l1).1 l2) := by
  induction l1 generalizing s with
  | nil => simp [serializedFrom, run]
  | cons e es ih => simp [serializedFrom, run, ih, Bool.and_assoc]

theorem clearCurrent_inflight (s : St) : (clearCurrent s).inflight = s.inflight := by
  unfold clearCurrent; cases s.intervalRef <;> simp

theorem clearCurrent_fields (s : St) :
    (clearCurrent s).analysisMode = s.analysisMode ∧
    (clearCurrent s).activeJobMode = s.activeJobMode ∧
    (clearCurrent s).jobId = s.jobId ∧
    (clearCurrent s).loading = s.loading ∧
    (clearCurrent s).inflight = s.inflight ∧
    (clearCurrent s).nextTimer = s.nextTimer ∧
    (clearCurrent s).nextJob = s.nextJob ∧
    (clearCurrent s).pins = s.pins := by
  unfold clearCurrent; cases s.intervalRef <;> simp

theorem clearCurrent_clears (s : St)
    (h : (s.intervalRef = none ∧ s.timers = []) ∨
      (∃ t j, s.intervalRef = some t ∧ s.timers = [(t, j)])) :
    (clearCurrent s).timers = [] ∧ (clearCurrent s).intervalRef = none := by
  unfold clearCurrent
  rcases h with ⟨h1, h2⟩ | ⟨t, j, h1, h2⟩
  · rw [h1]; exact ⟨h2, h1⟩
  · rw [h1, h2]; simp

theorem clearCurrent_timers_subset {s : St} (x : Nat × Nat)
    (h : x ∈ (clearCurrent s).timers) : x ∈ s.timers := by
  unfold clearCurrent at h
  rcases hr : s.intervalRef with _ | t
  · rw [hr] at h; exact h
  · rw [hr] at h; exact List.mem_of_mem_filter h

theorem clearCurrent_nextTimer (s : St) : (clearCurrent s).nextTimer = s.nextTimer :=
  (clearCurrent_fields s).2.2.2.2.2.1

theorem clearCurrent_nextJob (s : St) : (clearCurrent s).nextJob = s.nextJob :=
  (clearCurrent_fields s).2.2.2.2.2.2.1

theorem clearCurrent_pins (s : St) : (clearCurrent s).pins = s.pins :=
  (clearCurrent_fields s).2.2.2.2.2.2.2

theorem clearCurrent_jobId (s : St) : (clearCurrent s).jobId = s.jobId :=
  (clearCurrent_fields s).2.2.1

theorem clearCurrent_activeJobMode (s : St) :
    (clearCurrent s).activeJobMode = s.activeJobMode :=
  (clearCurrent_fields s).2.1

theorem clearCurrent_loading (s : St) : (clearCurrent s).loading = s.loading :=
  (clearCurrent_fields s).2.2.2.1

theorem getElem?_lt_length {α : Type} (l : List α) (i : Nat) (a : α)
    (h : l[i]? = some a) : i < l.length := by
  by_contra hc
  push_neg at hc
  rw [List.getElem?_eq_none hc] at h
  cases h

theorem step_inflight_le_one (s : St) (e : Event)
    (hs : s.inflight.length ≤ 1)
    (hok : (match e with
      | Event.tick _ => s.inflight.isEmpty
      | Event.submit => s.inflight.isEmpty
      | _ => true) = true) :
    (step s e).1.inflight.length ≤ 1 := by
  cases e with
  | selectMode m => simpa [step] using hs
  | submit =>
    have h0 : s.inflight = [] := List.isEmpty_iff.mp hok
    simp only [step]
    split
    · exact hs
    · simp [clearCurrent_inflight, h0]
  | tick t =>
    have h0 : s.inflight = [] := List.isEmpty_iff.mp hok
    simp only [step]
    split
    · exact hs
    · simp [h0]
  | pollOk i p =>
    simp only [step]
    rcases hm : s.inflight[i]? with _ | f
    · exact hs
    · cases f with
      | poll j m =>
        have hi : i < s.inflight.length := getElem?_lt_length _ _ _ hm
        have hel : (s.inflight.eraseIdx i).length = s.inflight.length - 1 :=
          List.length_eraseIdx_of_lt hi
        unfold applyPoll
        rcases p.status <;> simp [clearCurrent_inflight, hel] <;> omega
      | fetch j m => exact hs
  | pollFail i st =>
    simp only [step]
    rcases hm : s.inflight[i]? with _ | f
    · exact hs
    · cases f with
      | poll j m =>
        have hle := List.length_eraseIdx_le s.inflight i
        cases hstr : strIncludes (progressErrorMessage m) "404" <;>
          simp [hstr] <;> omega
      | fetch j m => exact hs
  | fetchOk i r =>
    simp only [step]
    rcases hm : s.inflight[i]? with _ | f
    · exact hs
    · cases f with
      | poll j m => exact hs
      | fetch j m =>
        have hle := List.length_eraseIdx_le s.inflight i
        simp
        omega
  | fetchFail i st =>
    simp only [step]
    rcases hm : s.inflight[i]? with _ | f
    · exact hs
    · cases f with
      | poll j m => exact hs
      | fetch j m =>
        have hle := List.length_eraseIdx_le s.inflight i
        cases hstr : strIncludes (resultErrorMessage m) "404" <;>
          simp [hstr] <;> omega

theorem run_inflight_le_one (s : St) (tr : List Event)
    (hs : s.inflight.length ≤ 1) (hser : serializedFrom s tr = true) :
    (run s tr).1.inflight.length ≤ 1 := by
  induction tr generalizing s with
  | nil => simpa [run] using hs
  | cons e es ih =>
    simp only [serializedFrom, Bool.and_eq_true] at hser
    simp only [run]
    exact ih _ (step_inflight_le_one s e hs hser.1) hser.2

theorem step_inv (s : St) (e : Event) (h : Inv s) :
    Inv (step s e).1 ∧
    s.nextJob ≤ (step s e).1.nextJob ∧
    (∀ j, j < s.nextJob → (step s e).1.pins j = s.pins j) ∧
    ObsPinned (step s e).1 (step s e).2 := by
  obtain ⟨hts, hfl⟩ := h
  cases e with
  | selectMode m =>
    exact ⟨⟨hts, hfl⟩, le_refl _, fun j _ => rfl, fun o ho => by cases ho⟩
  | submit =>
    by_cases hl : s.loading
    · simp only [step, if_pos hl]
      exact ⟨⟨hts, hfl⟩, le_refl _, fun j _ => trivial, fun o ho => by cases ho⟩
    · have hweak :
          (({ s with result := none, progress := none, jobId := none } : St).intervalRef = none ∧
            ({ s with result := none, progress := none, jobId := none } : St).timers = []) ∨
          (∃ t j, ({ s with result := none, progress := none, jobId := none } : St).intervalRef = some t ∧
            ({ s with result := none, progress := none, jobId := none } : St).timers = [(t, j)]) := by
        rcases hts with ⟨h1, h2⟩ | ⟨t, j, h1, h2, _⟩
        · exact Or.inl ⟨h1, h2⟩
        · exact Or.inr ⟨t, j, h1, h2⟩
      have hclear := clearCurrent_clears _ hweak
      simp only [step, if_neg hl, hclear.1, hclear.2, clearCurrent_nextTimer,
        clearCurrent_nextJob, clearCurrent_pins, clearCurrent_inflight, List.nil_append]
      refine ⟨⟨?_, ?_⟩, Nat.le_succ _, ?_, ?_⟩
      · exact Or.inr ⟨s.nextTimer, s.nextJob, rfl, rfl, rfl, Nat.lt_succ_self _, by simp⟩
      · intro f hf
        rcases List.mem_append.mp hf with hm | hm
        · obtain ⟨h1, h2⟩ := hfl f hm
          refine ⟨Nat.lt_succ_of_lt h1, ?_⟩
          have hne : (Flight.jid f == s.nextJob) = false :=
            beq_eq_false_iff_ne.mpr (by omega)
          simp [hne, h2]
        · have hfeq : f = Flight.poll s.nextJob s.analysisMode := by simpa using hm
          subst hfeq
          exact ⟨Nat.lt_succ_self _, by simp [Flight.jid, Flight.mode]⟩
      · intro j hj
        have hne : (j == s.nextJob) = false := beq_eq_false_iff_ne.mpr (by omega)
        simp [hne]
      · intro o ho
        rcases List.mem_cons.mp ho with rfl | ho2
        · exact ⟨Nat.lt_succ_self _, by simp⟩
        · have : o = Obs.reqProgress s.analysisMode s.nextJob := by simpa using ho2
          subst this
          exact ⟨Nat.lt_succ_self _, by simp⟩
  | tick t =>
    simp only [step]
    split
    · exact ⟨⟨hts, hfl⟩, le_refl _, fun j _ => rfl, fun o ho => by cases ho⟩
    · next x hfind =>
      have hxmem := List.mem_of_find?_eq_some hfind
      rcases hts with ⟨h1, h2⟩ | ⟨t0, j0, h1, h2, h3, h4, h5⟩
      · rw [h2] at hxmem; cases hxmem
      · rw [h2] at hxmem
        have hx : x = (t0, j0) := by simpa using hxmem
        subst hx
        refine ⟨⟨Or.inr ⟨t0, j0, h1, h2, h3, h4, h5⟩, ?_⟩, le_refl _, fun j _ => rfl, ?_⟩
        · intro f hf
          rcases List.mem_append.mp hf with hm | hm
          · exact hfl f hm
          · have hfeq : f = Flight.poll j0 s.activeJobMode := by simpa using hm
            subst hfeq
            exact ⟨h4, by simp [Flight.jid, Flight.mode, h5]⟩
        · intro o ho
          have : o = Obs.reqProgress s.activeJobMode j0 := by simpa using ho
          subst this
          exact ⟨h4, h5.symm⟩
  | pollOk i p =>
    simp only [step]
    rcases hm : s.inflight[i]? with _ | f
    · exact ⟨⟨hts, hfl⟩, le_refl _, fun j _ => rfl, fun o ho => by cases ho⟩
    · cases f with
      | fetch j m =>
        exact ⟨⟨hts, hfl⟩, le_refl _, fun j _ => rfl, fun o ho => by cases ho⟩
      | poll j m =>
        obtain ⟨hj, hmo⟩ := hfl _ (List.getElem?_mem hm)
        simp only [Flight.jid, Flight.mode] at hj hmo
        have herase : ∀ f2 ∈ s.inflight.eraseIdx i,
            Flight.jid f2 < s.nextJob ∧ Flight.mode f2 = s.pins (Flight.jid f2) :=
          fun f2 hf2 => hfl f2 (List.mem_of_mem_eraseIdx hf2)
        unfold applyPoll
        have hweak :
            (({ s with inflight := s.inflight.eraseIdx i, progress := some p } : St).intervalRef = none ∧
              ({ s with inflight := s.inflight.eraseIdx i, progress := some p } : St).timers = []) ∨
            (∃ t j2, ({ s with inflight := s.inflight.eraseIdx i, progress := some p } : St).intervalRef = some t ∧
              ({ s with inflight := s.inflight.eraseIdx i, progress := some p } : St).timers = [(t, j2)]) := by
          rcases hts with ⟨h1, h2⟩ | ⟨t, j2, h1, h2, _⟩
          · exact Or.inl ⟨h1, h2⟩
          · exact Or.inr ⟨t, j2, h1, h2⟩
        have hclear := clearCurrent_clears _ hweak
        rcases hps : p.status with _ | _ | _
        · refine ⟨⟨hts, herase⟩, le_refl _, fun j2 _ => by trivial, ?_⟩
          intro o ho
          have : o = Obs.wroteProgress j Status.running := by simpa using ho
          subst this
          trivial
        · simp only [hclear.1, hclear.2, clearCurrent_nextJob, clearCurrent_pins,
            clearCurrent_inflight, List.nil_append]
          refine ⟨⟨Or.inl ⟨rfl, rfl⟩, ?_⟩, le_refl _, fun j2 _ => by trivial, ?_⟩
          · intro f2 hf2
            rcases List.mem_append.mp hf2 with hm2 | hm2
            · exact herase f2 hm2
            · have hfeq : f2 = Flight.fetch j m := by simpa using hm2
              subst hfeq
              exact ⟨hj, hmo⟩
          · intro o ho
            rcases List.mem_cons.mp ho with rfl | ho2
            · trivial
            · have : o = Obs.reqResult m j := by simpa using ho2
              subst this
              exact ⟨hj, hmo⟩
        · simp only [hclear.1, hclear.2, clearCurrent_nextJob, clearCurrent_pins,
            clearCurrent_inflight]
          refine ⟨⟨Or.inl ⟨rfl, rfl⟩, ?_⟩, le_refl _, fun j2 _ => by trivial, ?_⟩
          · intro f2 hf2
            exact herase f2 hf2
          · intro o ho
            have : o = Obs.wroteProgress j Status.error := by simpa using ho
            subst this
            trivial
  | pollFail i st =>
    simp only [step]
    rcases hm : s.inflight[i]? with _ | f
    · exact ⟨⟨hts, hfl⟩, le_refl _, fun j _ => rfl, fun o ho => by cases ho⟩
    · cases f with
      | fetch j m =>
        exact ⟨⟨hts, hfl⟩, le_refl _, fun j _ => rfl, fun o ho => by cases ho⟩
      | poll j m =>
        have herase : ∀ f2 ∈ s.inflight.eraseIdx i,
            Flight.jid f2 < s.nextJob ∧ Flight.mode f2 = s.pins (Flight.jid f2) :=
          fun f2 hf2 => hfl f2 (List.mem_of_mem_eraseIdx hf2)
        by_cases hstr : strIncludes (progressErrorMessage m) "404" = true
        · simp only [if_pos hstr]
          exact ⟨⟨hts, herase⟩, le_refl _, fun j2 _ => by trivial, fun o ho => by cases ho⟩
        · simp only [if_neg hstr]
          refine ⟨⟨hts, herase⟩, le_refl _, fun j2 _ => by trivial, ?_⟩
          intro o ho
          have : o = Obs.loggedError := by simpa using ho
          subst this
          trivial
  | fetchOk i r =>
    simp only [step]
    rcases hm : s.inflight[i]? with _ | f
    · exact ⟨⟨hts, hfl⟩, le_refl _, fun j _ => rfl, fun o ho => by cases ho⟩
    · cases f with
      | poll j m =>
        exact ⟨⟨hts, hfl⟩, le_refl _, fun j _ => rfl, fun o ho => by cases ho⟩
      | fetch j m =>
        have herase : ∀ f2 ∈ s.inflight.eraseIdx i,
            Flight.jid f2 < s.nextJob ∧ Flight.mode f2 = s.pins (Flight.jid f2) :=
          fun f2 hf2 => hfl f2 (List.mem_of_mem_eraseIdx hf2)
        refine ⟨⟨hts, herase⟩, le_refl _, fun j2 _ => by trivial, ?_⟩
        intro o ho
        have : o = Obs.wroteResult j := by simpa using ho
        subst this
        trivial
  | fetchFail i st =>
    simp only [step]
    rcases hm : s.inflight[i]? with _ | f
    · exact ⟨⟨hts, hfl⟩, le_refl _, fun j _ => rfl, fun o ho => by cases ho⟩
    · cases f with
      | poll j m =>
        exact ⟨⟨hts, hfl⟩, le_refl _, fun j _ => rfl, fun o ho => by cases ho⟩
      | fetch j m =>
        have herase : ∀ f2 ∈ s.inflight.eraseIdx i,
            Flight.jid f2 < s.nextJob ∧ Flight.mode f2 = s.pins (Flight.jid f2) :=
          fun f2 hf2 => hfl f2 (List.mem_of_mem_eraseIdx hf2)
        by_cases hstr : strIncludes (resultErrorMessage m) "404" = true
        · simp only [if_pos hstr]
          exact ⟨⟨hts, herase⟩, le_refl _, fun j2 _ => by trivial, fun o ho => by cases ho⟩
        · simp only [if_neg hstr]
          refine ⟨⟨hts, herase⟩, le_refl _, fun j2 _ => by trivial, ?_⟩
          intro o ho
          have : o = Obs.loggedError := by simpa using ho
          subst this
          trivial

theorem obsOk_mono (s1 s2 : St) (hn : s1.nextJob ≤ s2.nextJob)
    (hp : ∀ j, j < s1.nextJob → s2.pins j = s1.pins j)
    (o : Obs) (h : obsOk s1 o) : obsOk s2 o := by
  cases o with
  | submitted j m =>
    obtain ⟨h1, h2⟩ := h
    exact ⟨by omega, by rw [hp j h1]; exact h2⟩
  | reqProgress m j =>
    obtain ⟨h1, h2⟩ := h
    exact ⟨by omega, by rw [hp j h1]; exact h2⟩
  | reqResult m j =>
    obtain ⟨h1, h2⟩ := h
    exact ⟨by omega, by rw [hp j h1]; exact h2⟩
  | wroteProgress j st => trivial
  | wroteResult j => trivial
  | loggedError => trivial

theorem run_inv (s : St) (tr : List Event) (h : Inv s) :
    Inv (run s tr).1 ∧
    s.nextJob ≤ (run s tr).1.nextJob ∧
    (∀ j, j < s.nextJob → (run s tr).1.pins j = s.pins j) ∧
    ObsPinned (run s tr).1 (run s tr).2 := by
  induction tr generalizing s with
  | nil => exact ⟨h, le_refl _, fun j _ => rfl, fun o ho => by cases ho⟩
  | cons e es ih =>
    obtain ⟨h1, h2, h3, h4⟩ := step_inv s e h
    obtain ⟨g1, g2, g3, g4⟩ := ih (step s e).1 h1
    refine ⟨g1, le_trans h2 g2, ?_, ?_⟩
    · intro j hj
      rw [show (run s (e :: es)).1 = (run (step s e).1 es).1 from rfl,
        g3 j (lt_of_lt_of_le hj h2), h3 j hj]
    · intro o ho
      simp only [run] at ho
      rcases List.mem_append.mp ho with hm | hm
      · exact obsOk_mono _ _ g2 g3 o (h4 o hm)
      · exact g4 o hm

theorem initSt_inv : Inv initSt :=
  ⟨Or.inl ⟨rfl, rfl⟩, fun f hf => by cases hf⟩

theorem timerShape_weak (s : St) (h : TimerShape s) :
    (s.intervalRef = none ∧ s.timers = []) ∨
    (∃ t j2, s.intervalRef = some t ∧ s.timers = [(t, j2)]) := by
  rcases h with ⟨h1, h2⟩ | ⟨t, j2, h1, h2, _⟩
  · exact Or.inl ⟨h1, h2⟩
  · exact Or.inr ⟨t, j2, h1, h2⟩

theorem step_pollOk_eq (s : St) (i : Nat) (p : ProgressM) (j : Nat) (m : Mode)
    (hm : s.inflight[i]? = some (Flight.poll j m)) :
    step s (Event.pollOk i p) = applyPoll s i j m p := by
  simp [step, hm]

theorem applyPoll_error (s : St) (i j : Nat) (m : Mode) (p : ProgressM)
    (herr : p.status = Status.error)
    (hshape : (s.intervalRef = none ∧ s.timers = []) ∨
      (∃ t j2, s.intervalRef = some t ∧ s.timers = [(t, j2)])) :
    (applyPoll s i j m p).1.timers = [] ∧
    (applyPoll s i j m p).1.intervalRef = none ∧
    (applyPoll s i j m p).1.loading = false ∧
    (applyPoll s i j m p).1.inflight = s.inflight.eraseIdx i ∧
    (applyPoll s i j m p).1.nextJob = s.nextJob ∧
    (applyPoll s i j m p).2 = [Obs.wroteProgress j Status.error] := by
  have hclear := clearCurrent_clears
    ({ s with inflight := s.inflight.eraseIdx i, progress := some p } : St) hshape
  unfold applyPoll
  rw [herr]
  exact ⟨hclear.1, hclear.2, rfl,
    (clearCurrent_inflight _), (clearCurrent_nextJob _), rfl⟩

theorem applyPoll_done (s : St) (i j : Nat) (m : Mode) (p : ProgressM)
    (hdone : p.status = Status.done)
    (hshape : (s.intervalRef = none ∧ s.timers = []) ∨
      (∃ t j2, s.intervalRef = some t ∧ s.timers = [(t, j2)])) :
    (applyPoll s i j m p).1.timers = [] ∧
    (applyPoll s i j m p).1.intervalRef = none ∧
    (applyPoll s i j m p).1.inflight = s.inflight.eraseIdx i ++ [Flight.fetch j m] ∧
    (applyPoll s i j m p).1.nextJob = s.nextJob ∧
    (applyPoll s i j m p).2 = [Obs.wroteProgress j Status.done, Obs.reqResult m j] := by
  have hclear := clearCurrent_clears
    ({ s with inflight := s.inflight.eraseIdx i, progress := some p } : St) hshape
  unfold applyPoll
  rw [hdone]
  exact ⟨hclear.1, hclear.2,
    congrArg (fun l => l ++ [Flight.fetch j m]) (clearCurrent_inflight _),
    (clearCurrent_nextJob _), rfl⟩

theorem applyPoll_running_eq (s : St) (i j : Nat) (m : Mode) (p : ProgressM)
    (h : p.status = Status.running) :
    applyPoll s i j m p =
      ({ s with inflight := s.inflight.eraseIdx i, progress := some p },
        [Obs.wroteProgress j Status.running]) := by
  unfold applyPoll
  rw [h]

theorem applyPoll_done_eq (s : St) (i j : Nat) (m : Mode) (p : ProgressM)
    (h : p.status = Status.done) :
    applyPoll s i j m p =
      ({ clearCurrent ({ s with inflight := s.inflight.eraseIdx i, progress := some p } : St) with
          inflight := s.inflight.eraseIdx i ++ [Flight.fetch j m] },
        [Obs.wroteProgress j Status.done, Obs.reqResult m j]) := by
  unfold applyPoll
  rw [h]
  simp [clearCurrent_inflight]

theorem applyPoll_error_state_eq (s : St) (i j : Nat) (m : Mode) (p : ProgressM)
    (h : p.status = Status.error) :
    applyPoll s i j m p =
      ({ clearCurrent ({ s with inflight := s.inflight.eraseIdx i, progress := some p } : St) with
          loading := false },
        [Obs.wroteProgress j Status.error]) := by
  unfold applyPoll
  rw [h]

theorem noJ_step (j : Nat) (s : St) (e : Event) (h : NoJ j s) :
    NoJ j (step s e).1 ∧
    ∀ o ∈ (step s e).2, ∀ m2 : Mode,
      o ≠ Obs.reqProgress m2 j ∧ o ≠ Obs.reqResult m2 j := by
  obtain ⟨ht, hif, hj⟩ := h
  cases e with
  | selectMode m =>
    exact ⟨⟨ht, hif, hj⟩, fun o ho => by cases ho⟩
  | submit =>
    by_cases hl : s.loading
    · simp only [step, if_pos hl]
      exact ⟨⟨ht, hif, hj⟩, fun o ho => by cases ho⟩
    · simp only [step, if_neg hl, clearCurrent_nextJob]
      refine ⟨⟨?_, ?_, show j < s.nextJob + 1 by omega⟩, ?_⟩
      · intro x hx
        rcases List.mem_append.mp hx with hm | hm
        · have hx2 := clearCurrent_timers_subset x hm
          exact ht x hx2
        · rw [List.mem_singleton] at hm
          subst hm
          show s.nextJob ≠ j
          omega
      · intro f hf m2
        rcases List.mem_append.mp hf with hm | hm
        · rw [clearCurrent_inflight] at hm
          exact hif f hm m2
        · have : f = Flight.poll s.nextJob s.analysisMode := by simpa using hm
          subst this
          intro hc
          have : s.nextJob = j := by injection hc
          omega
      · intro o ho m2
        rcases List.mem_cons.mp ho with rfl | ho2
        · exact ⟨fun hc => Obs.noConfusion hc, fun hc => Obs.noConfusion hc⟩
        · have : o = Obs.reqProgress s.analysisMode s.nextJob := by simpa using ho2
          subst this
          constructor
          · intro hc
            have : s.nextJob = j := by injection hc
            omega
          · intro hc; cases hc
  | tick t =>
    simp only [step]
    split
    · exact ⟨⟨ht, hif, hj⟩, fun o ho => by cases ho⟩
    · next x hfind =>
      have hxmem := List.mem_of_find?_eq_some hfind
      have hxj := ht x hxmem
      refine ⟨⟨ht, ?_, hj⟩, ?_⟩
      · intro f hf m2
        rcases List.mem_append.mp hf with hm | hm
        · exact hif f hm m2
        · have : f = Flight.poll x.2 s.activeJobMode := by simpa using hm
          subst this
          intro hc
          have : x.2 = j := by injection hc
          exact hxj this
      · intro o ho m2
        have : o = Obs.reqProgress s.activeJobMode x.2 := by simpa using ho
        subst this
        constructor
        · intro hc
          have : x.2 = j := by injection hc
          exact hxj this
        · intro hc; cases hc
  | pollOk i p =>
    rcases hm : s.inflight[i]? with _ | f
    · have hstep : step s (Event.pollOk i p) = (s, []) := by simp [step, hm]
      rw [hstep]
      exact ⟨⟨ht, hif, hj⟩, fun o ho => by cases ho⟩
    · cases f with
      | fetch j2 m =>
        have hstep : step s (Event.pollOk i p) = (s, []) := by simp [step, hm]
        rw [hstep]
        exact ⟨⟨ht, hif, hj⟩, fun o ho => by cases ho⟩
      | poll j2 m =>
        rw [step_pollOk_eq s i p j2 m hm]
        have hj2 : j2 ≠ j := by
          intro hc
          subst hc
          exact (hif _ (List.getElem?_mem hm) m) rfl
        have herase : ∀ f2 ∈ s.inflight.eraseIdx i, ∀ m2 : Mode,
            f2 ≠ Flight.poll j m2 :=
          fun f2 hf2 => hif f2 (List.mem_of_mem_eraseIdx hf2)
        rcases hps : p.status with _ | _ | _
        · rw [applyPoll_running_eq s i j2 m p hps]
          refine ⟨⟨ht, herase, hj⟩, ?_⟩
          intro o ho m2
          have : o = Obs.wroteProgress j2 Status.running := by simpa using ho
          subst this
          exact ⟨fun hc => Obs.noConfusion hc, fun hc => Obs.noConfusion hc⟩
        · rw [applyPoll_done_eq s i j2 m p hps]
          refine ⟨⟨?_, ?_, ?_⟩, ?_⟩
          · intro x hx
            have hx2 := clearCurrent_timers_subset x hx
            exact ht x hx2
          · intro f2 hf2 m2
            rcases List.mem_append.mp hf2 with hm2 | hm2
            · exact herase f2 hm2 m2
            · have : f2 = Flight.fetch j2 m := by simpa using hm2
              subst this
              intro hc; cases hc
          · rw [clearCurrent_nextJob]
            exact hj
          · intro o ho m2
            rcases List.mem_cons.mp ho with rfl | ho2
            · exact ⟨fun hc => Obs.noConfusion hc, fun hc => Obs.noConfusion hc⟩
            · have : o = Obs.reqResult m j2 := by simpa using ho2
              subst this
              constructor
              · intro hc; cases hc
              · intro hc
                have : j2 = j := by injection hc
                exact hj2 this
        · rw [applyPoll_error_state_eq s i j2 m p hps]
          refine ⟨⟨?_, ?_, ?_⟩, ?_⟩
          · intro x hx
            have hx2 := clearCurrent_timers_subset x hx
            exact ht x hx2
          · intro f2 hf2 m2
            have hf2b : f2 ∈ ({ s with inflight := s.inflight.eraseIdx i, progress := some p } : St).inflight := by
              rw [← clearCurrent_inflight]
              exact hf2
            exact herase f2 hf2b m2
          · rw [clearCurrent_nextJob]
            exact hj
          · intro o ho m2
            have : o = Obs.wroteProgress j2 Status.error := by simpa using ho
            subst this
            exact ⟨fun hc => Obs.noConfusion hc, fun hc => Obs.noConfusion hc⟩
  | pollFail i st =>
    simp only [step]
    rcases hm : s.inflight[i]? with _ | f
    · exact ⟨⟨ht, hif, hj⟩, fun o ho => by cases ho⟩
    · cases f with
      | fetch j2 m =>
        exact ⟨⟨ht, hif, hj⟩, fun o ho => by cases ho⟩
      | poll j2 m =>
        have herase : ∀ f2 ∈ s.inflight.eraseIdx i, ∀ m2 : Mode,
            f2 ≠ Flight.poll j m2 :=
          fun f2 hf2 => hif f2 (List.mem_of_mem_eraseIdx hf2)
        by_cases hstr : strIncludes (progressErrorMessage m) "404" = true
        · simp only [if_pos hstr]
          exact ⟨⟨ht, herase, hj⟩, fun o ho => by cases ho⟩
        · simp only [if_neg hstr]
          refine ⟨⟨ht, herase, hj⟩, ?_⟩
          intro o ho m2
          have : o = Obs.loggedError := by simpa using ho
          subst this
          exact ⟨fun hc => Obs.noConfusion hc, fun hc => Obs.noConfusion hc⟩
  | fetchOk i r =>
    simp only [step]
    rcases hm : s.inflight[i]? with _ | f
    · exact ⟨⟨ht, hif, hj⟩, fun o ho => by cases ho⟩
    · cases f with
      | poll j2 m =>
        exact ⟨⟨ht, hif, hj⟩, fun o ho => by cases ho⟩
      | fetch j2 m =>
        have herase : ∀ f2 ∈ s.inflight.eraseIdx i, ∀ m2 : Mode,
            f2 ≠ Flight.poll j m2 :=
          fun f2 hf2 => hif f2 (List.mem_of_mem_eraseIdx hf2)
        refine ⟨⟨ht, herase, hj⟩, ?_⟩
        intro o ho m2
        have : o = Obs.wroteResult j2 := by simpa using ho
        subst this
        exact ⟨fun hc => Obs.noConfusion hc, fun hc => Obs.noConfusion hc⟩
  | fetchFail i st =>
    simp only [step]
    rcases hm : s.inflight[i]? with _ | f
    · exact ⟨⟨ht, hif, hj⟩, fun o ho => by cases ho⟩
    · cases f with
      | poll j2 m =>
        exact ⟨⟨ht, hif, hj⟩, fun o ho => by cases ho⟩
      | fetch j2 m =>
        have herase : ∀ f2 ∈ s.inflight.eraseIdx i, ∀ m2 : Mode,
            f2 ≠ Flight.poll j m2 :=
          fun f2 hf2 => hif f2 (List.mem_of_mem_eraseIdx hf2)
        by_cases hstr : strIncludes (resultErrorMessage m) "404" = true
        · simp only [if_pos hstr]
          exact ⟨⟨ht, herase, hj⟩, fun o ho => by cases ho⟩
        · simp only [if_neg hstr]
          refine ⟨⟨ht, herase, hj⟩, ?_⟩
          intro o ho m2
          have : o = Obs.loggedError := by simpa using ho
          subst this
          exact ⟨fun hc => Obs.noConfusion hc, fun hc => Obs.noConfusion hc⟩

theorem noJ_run (j : Nat) (s : St) (tr : List Event) (h : NoJ j s) :
    NoJ j (run s tr).1 ∧
    ∀ o ∈ (run s tr).2, ∀ m2 : Mode,
      o ≠ Obs.reqProgress m2 j ∧ o ≠ Obs.reqResult m2 j := by
  induction tr generalizing s with
  | nil => exact ⟨h, fun o ho => by cases ho⟩
  | cons e es ih =>
    obtain ⟨h1, h2⟩ := noJ_step j s e h
    obtain ⟨g1, g2⟩ := ih (step s e).1 h1
    refine ⟨g1, ?_⟩
    intro o ho
    simp only [run] at ho
    rcases List.mem_append.mp ho with hm | hm
    · exact h2 o hm
    · exact g2 o hm

/- ============================================================
   Claim theorems
   ============================================================ -/

/-- C1 — Mode pinning: in every execution (any interleaving of dropdown
changes, submissions, timer ticks and response arrivals), every progress
poll and every result fetch issued for a job dispatches on the mode
that `onStart` recorded in `activeJobModeRef` when that job was
submitted — never on the currently selected `analysisMode`. -/
theorem c1_mode_pinning (tr : List Event) (j : Nat) (msub mreq : Mode)
    (hsub : Obs.submitted j msub ∈ (run initSt tr).2)
    (hreq : Obs.reqProgress mreq j ∈ (run initSt tr).2 ∨
      Obs.reqResult mreq j ∈ (run initSt tr).2) :
    mreq = msub := by
  obtain ⟨_, _, _, h4⟩ := run_inv initSt tr initSt_inv
  have e1 := h4 _ hsub
  rcases hreq with hr | hr
  · exact (h4 _ hr).2.trans e1.2.symm
  · exact (h4 _ hr).2.trans e1.2.symm

/-- Witness for C1: job 0 is submitted in `optionality` mode, the user
then switches the dropdown to `dividendenwerte`, and the interval fires:
the poll issued by the tick still dispatches on `optionality`. -/
theorem c1_mode_pinning_witness :
    Obs.submitted 0 Mode.optionality ∈
      (run initSt [Event.selectMode Mode.optionality, Event.submit,
        Event.selectMode Mode.dividendenwerte, Event.tick 0]).2 ∧
    Obs.reqProgress Mode.optionality 0 ∈
      (run initSt [Event.selectMode Mode.optionality, Event.submit,
        Event.selectMode Mode.dividendenwerte, Event.tick 0]).2 ∧
    Mode.optionality = Mode.optionality :=
  ⟨by decide, by decide,
    c1_mode_pinning
      [Event.selectMode Mode.optionality, Event.submit,
        Event.selectMode Mode.dividendenwerte, Event.tick 0]
      0 Mode.optionality Mode.optionality (by decide) (Or.inl (by decide))⟩

/-- C2 — violation of "single active job": in the reachable execution
`c2trace`, job 1 has been submitted (and is the current `jobId`), yet
job 0's still-in-flight poll callback afterwards writes job 0's
progress, clears job 1's interval timer (leaving no timer at all), and
fetches and stores job 0's result — observations of job 0 after job 1's
submission, all visible after the `submitted 1` marker. -/
theorem c2_stale_callback_after_supersession :
    (run initSt c2trace).1.jobId = some 1 ∧
    (run initSt c2trace).1.result = some 7 ∧
    (run initSt c2trace).1.progress = some pDone ∧
    (run initSt c2trace).1.timers = [] ∧
    (run initSt c2trace).2 =
      [Obs.submitted 0 Mode.full, Obs.reqProgress Mode.full 0, Obs.loggedError,
        Obs.reqProgress Mode.full 0, Obs.submitted 1 Mode.full,
        Obs.reqProgress Mode.full 1, Obs.wroteProgress 0 Status.done,
        Obs.reqResult Mode.full 0, Obs.wroteResult 0] := by
  decide

/-- C4 — the 404-tolerance guard is dead code: `getProgress` /
`getSingleProgress` throw the fixed messages `"Progress error"` /
`"Single progress error"` for every non-2xx status, so the catch
block's `msg.includes("404")` test is false even when the poll failed
with HTTP 404; the code then logs the error and clears the busy state
(`setLoading(false)`), although the polling interval itself keeps
running. -/
theorem c4_not_found_clears_busy :
    progressErrorMessage Mode.full = "Progress error" ∧
    strIncludes (progressErrorMessage Mode.full) "404" = false ∧
    strIncludes (progressErrorMessage Mode.optionality) "404" = false ∧
    (run initSt c4trace).1.loading = false ∧
    Obs.loggedError ∈ (run initSt c4trace).2 ∧
    (run initSt c4trace).1.timers = [(0, 0)] ∧
    (run initSt c4trace).1.intervalRef = some 0 := by
  decide

/-- C5 — Terminal error stop: under the specification's concurrency
regime (serialized polling: no tick or submission while a request is in
flight), when a poll of job `j` observes `status == error`, the step
clears the busy flag, performs no result fetch (its only observation is
the progress write), and no poll request or result fetch for job `j` is
ever issued afterwards. -/
theorem c5_terminal_error_stop (tr1 tr2 : List Event) (i j : Nat) (m : Mode) (p : ProgressM)
    (hser : serializedFrom initSt (tr1 ++ Event.pollOk i p :: tr2) = true)
    (hfl : ((run initSt tr1).1.inflight)[i]? = some (Flight.poll j m))
    (herr : p.status = Status.error) :
    (step (run initSt tr1).1 (Event.pollOk i p)).1.loading = false ∧
    (step (run initSt tr1).1 (Event.pollOk i p)).2 = [Obs.wroteProgress j Status.error] ∧
    ∀ o ∈ (run (step (run initSt tr1).1 (Event.pollOk i p)).1 tr2).2, ∀ m2 : Mode,
      o ≠ Obs.reqProgress m2 j ∧ o ≠ Obs.reqResult m2 j := by
  have hser1 : serializedFrom initSt tr1 = true := by
    rw [serializedFrom_append, Bool.and_eq_true] at hser
    exact hser.1
  have hInv := (run_inv initSt tr1 initSt_inv).1
  have hlen := run_inflight_le_one initSt tr1 (by decide) hser1
  have hi : i < (run initSt tr1).1.inflight.length := getElem?_lt_length _ _ _ hfl
  have hi0 : i = 0 := by omega
  subst hi0
  have hlen1 : (run initSt tr1).1.inflight.length = 1 := by omega
  obtain ⟨a, ha⟩ := List.length_eq_one.mp hlen1
  have ha2 : a = Flight.poll j m := by
    rw [ha] at hfl
    simpa using hfl
  subst ha2
  rw [step_pollOk_eq _ 0 p j m hfl]
  have hshape := timerShape_weak _ hInv.1
  obtain ⟨het, heir, hel, hei, hen, heo⟩ :=
    applyPoll_error (run initSt tr1).1 0 j m p herr hshape
  refine ⟨hel, heo, ?_⟩
  have hjlt : j < (run initSt tr1).1.nextJob := by
    have h2 := hInv.2 _ (List.getElem?_mem hfl)
    simpa [Flight.jid] using h2.1
  have hnoJ : NoJ j (applyPoll (run initSt tr1).1 0 j m p).1 := by
    refine ⟨?_, ?_, ?_⟩
    · intro x hx
      rw [het] at hx
      cases hx
    · intro f hf m2
      rw [hei, ha] at hf
      simp at hf
    · rw [hen]
      exact hjlt
  exact fun o ho => (noJ_run j _ tr2 hnoJ).2 o ho

/-- Witness for C5: job 0's first poll reports `error`; the busy flag is
cleared, the step issues no result fetch, and the subsequent timer tick
issues nothing for job 0. -/
theorem c5_terminal_error_stop_witness :
    (step (run initSt [Event.submit]).1 (Event.pollOk 0 pErr)).1.loading = false ∧
    (step (run initSt [Event.submit]).1 (Event.pollOk 0 pErr)).2 =
      [Obs.wroteProgress 0 Status.error] :=
  ⟨(c5_terminal_error_stop [Event.submit] [Event.tick 0] 0 0 Mode.full pErr
      (by decide) (by decide) (by decide)).1,
    (c5_terminal_error_stop [Event.submit] [Event.tick 0] 0 0 Mode.full pErr
      (by decide) (by decide) (by decide)).2.1⟩

theorem resultFetchCount_append (j : Nat) (l1 l2 : List Obs) :
    resultFetchCount j (l1 ++ l2) = resultFetchCount j l1 + resultFetchCount j l2 := by
  induction l1 with
  | nil => simp [resultFetchCount]
  | cons o l ih =>
    cases o <;> simp [resultFetchCount, ih] <;> omega

theorem doneObsCount_append (j : Nat) (l1 l2 : List Obs) :
    doneObsCount j (l1 ++ l2) = doneObsCount j l1 + doneObsCount j l2 := by
  induction l1 with
  | nil => simp [doneObsCount]
  | cons o l ih =>
    cases o <;> simp [doneObsCount, ih] <;> omega

theorem step_count_facts (j : Nat) (s : St) (e : Event) :
    resultFetchCount j (step s e).2 ≤ doneObsCount j (step s e).2 ∧
    resultFetchCount j (step s e).2 ≤ 1 := by
  cases e with
  | selectMode m => simp [step, resultFetchCount, doneObsCount]
  | submit =>
    by_cases hl : s.loading
    · simp [step, hl, resultFetchCount, doneObsCount]
    · simp [step, hl, resultFetchCount, doneObsCount]
  | tick t =>
    simp only [step]
    split <;> simp [resultFetchCount, doneObsCount]
  | pollOk i p =>
    rcases hm : s.inflight[i]? with _ | f
    · simp [step, hm, resultFetchCount, doneObsCount]
    · cases f with
      | fetch j2 m => simp [step, hm, resultFetchCount, doneObsCount]
      | poll j2 m =>
        rw [step_pollOk_eq s i p j2 m hm]
        rcases hps : p.status with _ | _ | _
        · rw [applyPoll_running_eq s i j2 m p hps]
          simp [resultFetchCount, doneObsCount]
        · rw [applyPoll_done_eq s i j2 m p hps]
          by_cases hjj : (j2 == j) = true <;>
            simp [resultFetchCount, doneObsCount, hjj]
        · rw [applyPoll_error_state_eq s i j2 m p hps]
          simp [resultFetchCount, doneObsCount]
  | pollFail i st =>
    rcases hm : s.inflight[i]? with _ | f
    · simp [step, hm, resultFetchCount, doneObsCount]
    · cases f with
      | fetch j2 m => simp [step, hm, resultFetchCount, doneObsCount]
      | poll j2 m =>
        by_cases hstr : strIncludes (progressErrorMessage m) "404" = true <;>
          simp [step, hm, hstr, resultFetchCount, doneObsCount]
  | fetchOk i r =>
    rcases hm : s.inflight[i]? with _ | f
    · simp [step, hm, resultFetchCount, doneObsCount]
    · cases f with
      | poll j2 m => simp [step, hm, resultFetchCount, doneObsCount]
      | fetch j2 m => simp [step, hm, resultFetchCount, doneObsCount]
  | fetchFail i st =>
    rcases hm : s.inflight[i]? with _ | f
    · simp [step, hm, resultFetchCount, doneObsCount]
    · cases f with
      | poll j2 m => simp [step, hm, resultFetchCount, doneObsCount]
      | fetch j2 m =>
        by_cases hstr : strIncludes (resultErrorMessage m) "404" = true <;>
          simp [step, hm, hstr, resultFetchCount, doneObsCount]

theorem run_fetch_le_done (j : Nat) (s : St) (tr : List Event) :
    resultFetchCount j (run s tr).2 ≤ doneObsCount j (run s tr).2 := by
  induction tr generalizing s with
  | nil => simp [run, resultFetchCount, doneObsCount]
  | cons e es ih =>
    rw [show (run s (e :: es)).2 = (step s e).2 ++ (run (step s e).1 es).2 from rfl,
      resultFetchCount_append, doneObsCount_append]
    have h1 := (step_count_facts j s e).1
    have h2 := ih (step s e).1
    omega

theorem noJ_fetchCount (j : Nat) (s : St) (tr : List Event) (h : NoJ j s) :
    resultFetchCount j (run s tr).2 = 0 := by
  have h2 := (noJ_run j s tr h).2
  generalize hobs : (run s tr).2 = l at h2
  clear hobs
  induction l with
  | nil => rfl
  | cons o l ih =>
    have ho := h2 o (List.mem_cons_self o l)
    have hrest : ∀ o2 ∈ l, ∀ m2 : Mode,
        o2 ≠ Obs.reqProgress m2 j ∧ o2 ≠ Obs.reqResult m2 j :=
      fun o2 ho2 => h2 o2 (List.mem_cons_of_mem o ho2)
    cases o with
    | reqResult m j2 =>
      have : j2 ≠ j := by
        intro hc
        subst hc
        exact ((ho m).2) rfl
      simp [resultFetchCount, beq_eq_false_iff_ne.mpr this, ih hrest]
    | submitted j2 m => simpa [resultFetchCount] using ih hrest
    | reqProgress m j2 => simpa [resultFetchCount] using ih hrest
    | wroteProgress j2 st => simpa [resultFetchCount] using ih hrest
    | wroteResult j2 => simpa [resultFetchCount] using ih hrest
    | loggedError => simpa [resultFetchCount] using ih hrest

theorem step_fetch_noJ (j : Nat) (s : St) (e : Event)
    (hInv : Inv s) (hlen : s.inflight.length ≤ 1)
    (hpos : 0 < resultFetchCount j (step s e).2) :
    NoJ j (step s e).1 := by
  obtain ⟨hts, hfl⟩ := hInv
  cases e with
  | selectMode m => simp [step, resultFetchCount] at hpos
  | submit =>
    by_cases hl : s.loading <;>
      simp [step, hl, resultFetchCount] at hpos
  | tick t =>
    simp only [step] at hpos ⊢
    split at hpos
    · simp [resultFetchCount] at hpos
    · simp [resultFetchCount] at hpos
  | pollOk i p =>
    rcases hm : s.inflight[i]? with _ | f
    · rw [show step s (Event.pollOk i p) = (s, []) from by simp [step, hm]] at hpos
      simp [resultFetchCount] at hpos
    · cases f with
      | fetch j2 m =>
        rw [show step s (Event.pollOk i p) = (s, []) from by simp [step, hm]] at hpos
        simp [resultFetchCount] at hpos
      | poll j2 m =>
        rw [step_pollOk_eq s i p j2 m hm] at hpos ⊢
        rcases hps : p.status with _ | _ | _
        · rw [applyPoll_running_eq s i j2 m p hps] at hpos
          simp [resultFetchCount] at hpos
        · rw [applyPoll_done_eq s i j2 m p hps] at hpos ⊢
          have hjj : j2 = j := by
            by_contra hc
            simp [resultFetchCount, beq_eq_false_iff_ne.mpr hc] at hpos
          subst hjj
          have hi : i < s.inflight.length := getElem?_lt_length _ _ _ hm
          have hi0 : i = 0 := by omega
          subst hi0
          have hlen1 : s.inflight.length = 1 := by omega
          obtain ⟨a, ha⟩ := List.length_eq_one.mp hlen1
          have ha2 : a = Flight.poll j2 m := by
            rw [ha] at hm
            simpa using hm
          subst ha2
          have hclear := clearCurrent_clears
            ({ s with inflight := s.inflight.eraseIdx 0, progress := some p } : St)
            (timerShape_weak s hts)
          refine ⟨?_, ?_, ?_⟩
          · intro x hx
            rw [hclear.1] at hx
            cases hx
          · intro f2 hf2 m2
            rw [ha] at hf2
            simp at hf2
            subst hf2
            intro hc
            cases hc
          · rw [clearCurrent_nextJob]
            have hjlt := hfl _ (List.getElem?_mem hm)
            simpa [Flight.jid] using hjlt.1
        · rw [applyPoll_error_state_eq s i j2 m p hps] at hpos
          simp [resultFetchCount] at hpos
  | pollFail i st =>
    rcases hm : s.inflight[i]? with _ | f
    · simp [step, hm, resultFetchCount] at hpos
    · cases f with
      | fetch j2 m => simp [step, hm, resultFetchCount] at hpos
      | poll j2 m =>
        by_cases hstr : strIncludes (progressErrorMessage m) "404" = true <;>
          simp [step, hm, hstr, resultFetchCount] at hpos
  | fetchOk i r =>
    rcases hm : s.inflight[i]? with _ | f
    · simp [step, hm, resultFetchCount] at hpos
    · cases f with
      | poll j2 m => simp [step, hm, resultFetchCount] at hpos
      | fetch j2 m => simp [step, hm, resultFetchCount] at hpos
  | fetchFail i st =>
    rcases hm : s.inflight[i]? with _ | f
    · simp [step, hm, resultFetchCount] at hpos
    · cases f with
      | poll j2 m => simp [step, hm, resultFetchCount] at hpos
      | fetch j2 m =>
        by_cases hstr : strIncludes (resultErrorMessage m) "404" = true <;>
          simp [step, hm, hstr, resultFetchCount] at hpos

theorem serial_fetch_le_one (j : Nat) (s : St) (tr : List Event)
    (hInv : Inv s) (hlen : s.inflight.length ≤ 1)
    (hser : serializedFrom s tr = true) :
    resultFetchCount j (run s tr).2 ≤ 1 := by
  induction tr generalizing s with
  | nil => simp [run, resultFetchCount]
  | cons e es ih =>
    simp only [serializedFrom, Bool.and_eq_true] at hser
    have hInv1 := (step_inv s e hInv).1
    have hlen1 := step_inflight_le_one s e hlen hser.1
    rw [show (run s (e :: es)).2 = (step s e).2 ++ (run (step s e).1 es).2 from rfl,
      resultFetchCount_append]
    by_cases hz : resultFetchCount j (step s e).2 = 0
    · rw [hz]
      simpa using ih _ hInv1 hlen1 hser.2
    · have hnoJ := step_fetch_noJ j s e ⟨hInv.1, hInv.2⟩ hlen (by omega)
      have h0 := noJ_fetchCount j _ es hnoJ
      rw [h0]
      have hb := (step_count_facts j s e).2
      omega

theorem serial_fetch_stops (j : Nat) (s : St) (tr : List Event)
    (hInv : Inv s) (hlen : s.inflight.length ≤ 1)
    (hser : serializedFrom s tr = true)
    (hpos : 0 < resultFetchCount j (run s tr).2) :
    NoJ j (run s tr).1 := by
  induction tr generalizing s with
  | nil => simp [run, resultFetchCount] at hpos
  | cons e es ih =>
    simp only [serializedFrom, Bool.and_eq_true] at hser
    have hInv1 := (step_inv s e hInv).1
    have hlen1 := step_inflight_le_one s e hlen hser.1
    rw [show (run s (e :: es)).2 = (step s e).2 ++ (run (step s e).1 es).2 from rfl,
      resultFetchCount_append] at hpos
    by_cases hz : resultFetchCount j (step s e).2 = 0
    · rw [hz] at hpos
      exact ih _ hInv1 hlen1 hser.2 (by omega)
    · have hnoJ := step_fetch_noJ j s e hInv hlen (by omega)
      exact (noJ_run j _ es hnoJ).1

/-- C3 counterexample — two result fetches for one job: in the
reachable execution `c3trace` the interval fires while the first poll's
response is still outstanding; both in-flight polls of job 0 then
observe `done`, and each issues a result fetch, so the result-fetch
call for job 0 happens twice, refuting "the result fetch is issued
exactly once over the job's lifetime". -/
theorem c3_two_result_fetches :
    resultFetchCount 0 (run initSt c3trace).2 = 2 := by
  decide

/-- C3 amended — at-most-one result fetch under serialized polling:
every result fetch for a job is issued at a poll of that job observing
`done` (fetch count never exceeds done-observation count,
unconditionally); and in executions where no tick or submission happens
while a request is in flight, at most one result fetch is ever issued
per job, and once a fetch for a job has been issued no further poll
request or result fetch for that job follows. -/
theorem c3_at_most_one_fetch (tr1 tr2 : List Event) (j : Nat) :
    resultFetchCount j (run initSt (tr1 ++ tr2)).2 ≤
      doneObsCount j (run initSt (tr1 ++ tr2)).2 ∧
    (serializedFrom initSt (tr1 ++ tr2) = true →
      resultFetchCount j (run initSt (tr1 ++ tr2)).2 ≤ 1 ∧
      (0 < resultFetchCount j (run initSt tr1).2 →
        ∀ o ∈ (run (run initSt tr1).1 tr2).2, ∀ m2 : Mode,
          o ≠ Obs.reqProgress m2 j ∧ o ≠ Obs.reqResult m2 j)) := by
  refine ⟨run_fetch_le_done j initSt (tr1 ++ tr2), ?_⟩
  intro hser
  have hser12 : serializedFrom initSt tr1 = true ∧
      serializedFrom (run initSt tr1).1 tr2 = true := by
    rw [serializedFrom_append, Bool.and_eq_true] at hser
    exact hser
  refine ⟨serial_fetch_le_one j initSt (tr1 ++ tr2) initSt_inv (by decide) hser, ?_⟩
  intro hpos
  have hnoJ := serial_fetch_stops j initSt tr1 initSt_inv (by decide) hser12.1 hpos
  exact fun o ho => (noJ_run j _ tr2 hnoJ).2 o ho

/-- Witness for C3 (amended): job 0 is submitted, its poll observes
`done` and one fetch is issued; the trace is serialized, the fetch
count over the whole trace is 1, and the later tick issues nothing. -/
theorem c3_at_most_one_fetch_witness :
    serializedFrom initSt ([Event.submit, Event.pollOk 0 pDone] ++ [Event.fetchOk 0 7, Event.tick 0]) = true ∧
    resultFetchCount 0
      (run initSt ([Event.submit, Event.pollOk 0 pDone] ++ [Event.fetchOk 0 7, Event.tick 0])).2 ≤ 1 ∧
    0 < resultFetchCount 0 (run initSt [Event.submit, Event.pollOk 0 pDone]).2 :=
  ⟨by decide,
    ((c3_at_most_one_fetch [Event.submit, Event.pollOk 0 pDone] [Event.fetchOk 0 7, Event.tick 0] 0).2
      (by decide)).1,
    by decide⟩

/-- C6 — Busy state cleared on result-fetch failure: whatever the HTTP
status of the failed result fetch (including 404), the thrown message is
the client's fixed `"Result error"` / `"Single result error"`, the
`includes("404")` guard does not match, and the catch block runs
`setLoading(false)`. -/
theorem c6_fetch_fail_clears_busy (tr : List Event) (i status j : Nat) (m : Mode)
    (h : ((run initSt tr).1.inflight)[i]? = some (Flight.fetch j m)) :
    (step (run initSt tr).1 (Event.fetchFail i status)).1.loading = false := by
  have hmsg : strIncludes (resultErrorMessage m) "404" = false := by
    cases m <;> decide
  simp [step, h, hmsg]

/-- Witness for C6: job 0's poll observes `done`, the result fetch is in
flight and then fails with HTTP 404; the busy flag is cleared. -/
theorem c6_fetch_fail_clears_busy_witness :
    ((run initSt [Event.submit, Event.pollOk 0 pDone]).1.inflight)[0]? =
      some (Flight.fetch 0 Mode.full) ∧
    (step (run initSt [Event.submit, Event.pollOk 0 pDone]).1
      (Event.fetchFail 0 404)).1.loading = false :=
  ⟨by decide,
    c6_fetch_fail_clears_busy [Event.submit, Event.pollOk 0 pDone] 0 404 0 Mode.full
      (by decide)⟩

/- ============================================================
   Symbol normalization (C7)
   ============================================================ -/

theorem dropWhile_dropWhile {α : Type} (p : α → Bool) (l : List α) :
    (l.dropWhile p).dropWhile p = l.dropWhile p := by
  cases h : l.dropWhile p with
  | nil => simp
  | cons a t =>
    have h2 := List.head?_dropWhile_not p l
    rw [h] at h2
    simp only [List.head?_cons] at h2
    simp [List.dropWhile_cons, h2]

theorem dropWhile_of_isPre {α : Type} (p : α → Bool) (r m : List α)
    (hpre : r <+: m) (hm : m.dropWhile p = m) : r.dropWhile p = r := by
  cases r with
  | nil => rfl
  | cons a t =>
    obtain ⟨u, hu⟩ := hpre
    have hpa : p a = false := by
      by_contra hc
      rw [Bool.not_eq_false] at hc
      rw [← hu] at hm
      have hlen := congrArg List.length hm
      rw [List.cons_append, List.dropWhile_cons_of_pos hc] at hlen
      have hle := (List.dropWhile_suffix (l := t ++ u) p).length_le
      rw [List.length_cons] at hlen
      omega
    simp [List.dropWhile_cons, hpa]

theorem trimChars_isPre (l : List Char) :
    jsTrimChars l <+: l.dropWhile jsIsSpace := by
  unfold jsTrimChars
  have h := List.dropWhile_suffix (l := (l.dropWhile jsIsSpace).reverse) jsIsSpace
  have h2 := List.reverse_prefix.mpr h
  simpa using h2

theorem trimChars_idem (l : List Char) :
    jsTrimChars (jsTrimChars l) = jsTrimChars l := by
  have h1 : (jsTrimChars l).dropWhile jsIsSpace = jsTrimChars l :=
    dropWhile_of_isPre jsIsSpace _ _ (trimChars_isPre l)
      (dropWhile_dropWhile jsIsSpace l)
  have h2 : (jsTrimChars l).reverse.dropWhile jsIsSpace = (jsTrimChars l).reverse := by
    have h3 : (jsTrimChars l).reverse =
        ((l.dropWhile jsIsSpace).reverse).dropWhile jsIsSpace := by
      unfold jsTrimChars
      rw [List.reverse_reverse]
    rw [h3]
    exact dropWhile_dropWhile jsIsSpace _
  show (((jsTrimChars l).dropWhile jsIsSpace).reverse.dropWhile jsIsSpace).reverse
      = jsTrimChars l
  rw [h1, h2, List.reverse_reverse]

theorem toUpper_toUpper (c : Char) :
    Char.toUpper (Char.toUpper c) = Char.toUpper c := by
  have key : ∀ n, 97 ≤ n → n ≤ 122 →
      Char.toUpper (Char.ofNat (n - 32)) = Char.ofNat (n - 32) := by
    intro n h1 h2
    interval_cases n <;> decide
  by_cases h : c.toNat ≥ 97 ∧ c.toNat ≤ 122
  · have h1 : Char.toUpper c = Char.ofNat (c.toNat - 32) := by
      simp [Char.toUpper, h]
    rw [h1]
    exact key c.toNat h.1 h.2
  · have h1 : Char.toUpper c = c := by simp [Char.toUpper, h]
    rw [h1]
    exact h1

theorem jsIsSpace_toUpper (c : Char) :
    jsIsSpace (Char.toUpper c) = jsIsSpace c := by
  have key : ∀ n, 97 ≤ n → n ≤ 122 →
      jsIsSpace (Char.ofNat (n - 32)) = false ∧ jsIsSpace (Char.ofNat n) = false := by
    intro n h1 h2
    interval_cases n <;> exact ⟨by decide, by decide⟩
  by_cases h : c.toNat ≥ 97 ∧ c.toNat ≤ 122
  · have h1 : Char.toUpper c = Char.ofNat (c.toNat - 32) := by
      simp [Char.toUpper, h]
    have hk := key c.toNat h.1 h.2
    rw [h1, hk.1]
    conv_rhs => rw [← Char.ofNat_toNat c]
    rw [hk.2]
  · have h1 : Char.toUpper c = c := by simp [Char.toUpper, h]
    rw [h1]

theorem map_toUpper_idem (l : List Char) :
    (l.map Char.toUpper).map Char.toUpper = l.map Char.toUpper := by
  induction l with
  | nil => rfl
  | cons c t ih => simp [toUpper_toUpper, ih]

theorem dropWhile_map_toUpper (l : List Char) :
    (l.map Char.toUpper).dropWhile jsIsSpace =
      (l.dropWhile jsIsSpace).map Char.toUpper := by
  rw [List.dropWhile_map]
  have h : (jsIsSpace ∘ Char.toUpper) = jsIsSpace := funext jsIsSpace_toUpper
  rw [h]

theorem trim_map_toUpper (l : List Char) :
    jsTrimChars (l.map Char.toUpper) = (jsTrimChars l).map Char.toUpper := by
  unfold jsTrimChars
  rw [dropWhile_map_toUpper, ← List.map_reverse, dropWhile_map_toUpper,
    ← List.map_reverse]

/-- C7 — Idempotent symbol normalization: the submitted symbol is
`symbol.trim().toUpperCase()`; the inputs `"baba"`, `" Baba "` and
`"BABA"` all normalize to `"BABA"`, and normalizing twice equals
normalizing once for every input string. -/
theorem c7_idempotent_symbol_normalization :
    normalizeSymbol "baba" = "BABA" ∧
    normalizeSymbol " Baba " = "BABA" ∧
    normalizeSymbol "BABA" = "BABA" ∧
    ∀ s : String, normalizeSymbol (normalizeSymbol s) = normalizeSymbol s := by
  refine ⟨by decide, by decide, by decide, ?_⟩
  intro s
  show jsToUpper (jsTrim (jsToUpper (jsTrim s))) = jsToUpper (jsTrim s)
  unfold jsToUpper jsTrim
  congr 1
  show (jsTrimChars ((jsTrimChars s.data).map Char.toUpper)).map Char.toUpper
      = (jsTrimChars s.data).map Char.toUpper
  rw [trim_map_toUpper, trimChars_idem, map_toUpper_idem]

/- ============================================================
   StickyBar percentage (C8)
   ============================================================ -/

theorem floor_intCast_div (a b : ℤ) (hb : 0 < b) :
    ⌊(a : ℚ) / (b : ℚ)⌋ = a / b := by
  have hbn : ((b.toNat : ℕ) : ℤ) = b := Int.toNat_of_nonneg hb.le
  have hc : ((b.toNat : ℕ) : ℚ) = (b : ℚ) := by exact_mod_cast congrArg Int.cast hbn
  rw [← hc, Rat.floor_intCast_div_natCast a b.toNat, hbn]

/-- The positive-total branch of the StickyBar percentage as a closed
integer formula. -/
theorem stickyPercent_pos (p : ProgressM) (hp : p.total > 0) :
    stickyPercent (some p) = (200 * p.done + p.total) / (2 * p.total) := by
  have hne : (p.total : ℚ) ≠ 0 := by
    exact_mod_cast (by omega : p.total ≠ 0)
  have h1 : (p.done : ℚ) / (p.total : ℚ) * 100 + 1 / 2 =
      ((200 * p.done + p.total : ℤ) : ℚ) / ((2 * p.total : ℤ) : ℚ) := by
    push_cast
    field_simp
    ring
  rw [show stickyPercent (some p) =
      jsRound ((p.done : ℚ) / (p.total : ℚ) * 100) from by simp [stickyPercent, hp],
    jsRound, h1, floor_intCast_div _ _ (by omega)]

/-- C8 — Displayed completion percentage: with a snapshot whose
`total > 0` the StickyBar percentage is
`Math.round(done / total * 100)`, the round-half-up integer
`⌊(200·done + total) / (2·total)⌋` (so `done = 1, total = 5` shows 20);
with `total ≤ 0` or no snapshot it is 0. -/
theorem c8_sticky_percent :
    (∀ p : ProgressM, p.total > 0 →
      stickyPercent (some p) = (200 * p.done + p.total) / (2 * p.total)) ∧
    (∀ p : ProgressM, p.total ≤ 0 → stickyPercent (some p) = 0) ∧
    stickyPercent none = 0 ∧
    stickyPercent (some { job_id := "j", symbol := "AAPL", status := Status.running, total := 5, done := 1 }) = 20 := by
  refine ⟨stickyPercent_pos, ?_, rfl, ?_⟩
  · intro p hp
    simp [stickyPercent, show ¬(p.total > 0) from by omega]
  · rw [stickyPercent_pos _ (by decide)]
    decide

/-- Witness for C8: the scenario snapshot `done = 1, total = 5` gives
`⌊205 / 10⌋ = 20` through the theorem's `total > 0` branch. -/
theorem c8_sticky_percent_witness :
    stickyPercent (some { job_id := "j", symbol := "AAPL", status := Status.running, total := 5, done := 1 }) = (200 * 1 + 5) / (2 * 5) :=
  c8_sticky_percent.1
    { job_id := "j", symbol := "AAPL", status := Status.running, total := 5, done := 1 }
    (by decide)

/- ============================================================
   Health classification (C9) and the two-column split (C10)
   ============================================================ -/

theorem healthLoop_spec (vs : List JValue) (hasTrue : Bool) :
    healthLoop vs hasTrue =
      (if vs.any (fun v => meetsCriterion v == some false) then Health.bad
       else if hasTrue || vs.any (fun v => meetsCriterion v == some true) then Health.good
       else Health.neutral) := by
  induction vs generalizing hasTrue with
  | nil => cases hasTrue <;> simp [healthLoop]
  | cons v t ih =>
    rcases hmc : meetsCriterion v with _ | b
    · simp [healthLoop, hmc, ih]
    · cases b
      · simp [healthLoop, hmc]
      · simp [healthLoop, hmc, ih]

/-- C9 — Health classification: `calcAnalysisHealth` returns `neutral`
for any payload that is falsy or not a JS object; otherwise,
considering only the values of keys outside
`{symbol, frequency, overall_assessment, message, crv}`, it returns
`bad` if any such value has `meets_criterion === false`, else `good` if
any has `meets_criterion === true`, else `neutral` — a single failed
criterion dominates any number of passed ones. -/
theorem c9_calc_analysis_health (payload : JValue) :
    calcAnalysisHealth payload =
      (match payload with
       | JValue.obj _ =>
         if (criterionValues payload).any (fun v => meetsCriterion v == some false)
         then Health.bad
         else if (criterionValues payload).any (fun v => meetsCriterion v == some true)
         then Health.good
         else Health.neutral
       | JValue.arr _ =>
         if (criterionValues payload).any (fun v => meetsCriterion v == some false)
         then Health.bad
         else if (criterionValues payload).any (fun v => meetsCriterion v == some true)
         then Health.good
         else Health.neutral
       | _ => Health.neutral) := by
  cases payload with
  | obj fs => simpa using healthLoop_spec (criterionValues (JValue.obj fs)) false
  | arr xs => simpa using healthLoop_spec (criterionValues (JValue.arr xs)) false
  | null => rfl
  | bool b => rfl
  | num n => rfl
  | str s => rfl

/-- C10 — Two-column split is a partition: for every result and filter
state, the left view gets the first `Math.ceil(n / 2)` filtered entries
and the right view the rest, in order; their concatenation is exactly
the filtered entry list, and each view's `total` equals the number of
entries it received. -/
theorem c10_two_column_split (r : FullResultM) (q : String) (fq : Freq) (hh : Health) :
    ∀ es mid, es = filteredEntries (some r) q fq hh → mid = (es.length + 1) / 2 →
      splitResults (some r) q fq hh =
        (some (makeView r (es.take mid)), some (makeView r (es.drop mid))) ∧
      es.take mid ++ es.drop mid = es ∧
      (es.take mid).length = mid ∧
      (es.drop mid).length = es.length - mid ∧
      (makeView r (es.take mid)).total = ((es.take mid).length : Int) ∧
      (makeView r (es.drop mid)).total = ((es.drop mid).length : Int) := by
  intro es mid hes hmid
  have hmle : mid ≤ es.length := by omega
  subst hes
  subst hmid
  refine ⟨?_, List.take_append_drop _ _, ?_, List.length_drop _ _, rfl, rfl⟩
  · rfl
  · rw [List.length_take]
    omega

/-- Witness for C10: on a concrete three-entry result with no filters,
taking the first `⌈3/2⌉ = 2` entries and dropping them partitions the
filtered list. -/
theorem c10_two_column_split_witness :
    (filteredEntries (some c10exResult) "" Freq.all Health.all).take
        (((filteredEntries (some c10exResult) "" Freq.all Health.all).length + 1) / 2) ++
      (filteredEntries (some c10exResult) "" Freq.all Health.all).drop
        (((filteredEntries (some c10exResult) "" Freq.all Health.all).length + 1) / 2) =
      filteredEntries (some c10exResult) "" Freq.all Health.all :=
  (c10_two_column_split c10exResult "" Freq.all Health.all _ _ rfl rfl).2.1

end FundamentalAnalysis

